import Mathlib

/-!
# Verification of the slugify-heading-filename plugin core

Shallow embedding of the core logic of `src/main.ts` (heading extraction,
slug derivation, inclusion policy, and the rename controller), together with
theorems settling the specification claims about it.

Strings are modelled as Lean `String`s operated on through their `List Char`
contents; the JavaScript regular-expression and Unicode primitives used by
the source are modelled charwise (see the individual doc comments).
-/

namespace SlugSync

/-- Code point of a character, as a `Nat`. -/
def cp (c : Char) : Nat := c.toNat

/-- Model of the JS regex class `[̀-ͯ]` used in
`slugify` step 2: the combining diacritical marks block. -/
def isCombiningMark (c : Char) : Bool := 0x300 ≤ cp c && cp c ≤ 0x36F

/-- Model of the JS whitespace class `\s` (also the set removed by
`String.prototype.trim`): tab through carriage return, space, NBSP, and the
Unicode space/line separators. -/
def jsWhitespace (c : Char) : Bool :=
  (0x9 ≤ cp c && cp c ≤ 0xD) || cp c == 0x20 || cp c == 0xA0 || cp c == 0x1680 ||
  (0x2000 ≤ cp c && cp c ≤ 0x200A) || cp c == 0x2028 || cp c == 0x2029 ||
  cp c == 0x202F || cp c == 0x205F || cp c == 0x3000 || cp c == 0xFEFF

/-- Model of `String.prototype.toLowerCase`, restricted charwise: ASCII
`A`–`Z` map to `a`–`z`; every other character exercised in this development
is left unchanged (the accented letters of the source's pipeline have been
decomposed before this step runs, so only their ASCII bases reach it). -/
def jsToLower (c : Char) : Char :=
  if 0x41 ≤ cp c && cp c ≤ 0x5A then Char.ofNat (cp c + 32) else c

/-- The character class kept by `slugify` step 5, the complement of the JS
regex `[^a-z0-9 -]`: lowercase ASCII letters, ASCII digits, space, hyphen. -/
def keepChar (c : Char) : Bool :=
  (0x61 ≤ cp c && cp c ≤ 0x7A) || (0x30 ≤ cp c && cp c ≤ 0x39) ||
  cp c == 0x20 || cp c == 0x2D

/-- The hyphen class of `slugify` step 7, the global regex replacing
one-or-more hyphens. -/
def isHyphen (c : Char) : Bool := c == '-'

/-- Characters that can appear in a finished slug: lowercase ASCII letters,
ASCII digits, hyphen. -/
def goodChar (c : Char) : Bool :=
  (0x61 ≤ cp c && cp c ≤ 0x7A) || (0x30 ≤ cp c && cp c ≤ 0x39) || cp c == 0x2D

/-- Model of the JS builtin `String.prototype.normalize('NFKD')`, charwise:
identity on ASCII (true of NFKD), with a table of the decomposable
characters exercised in this development (`é`, `à`, `²`), and identity on
the remaining characters exercised (none of which decompose; in particular
the em dash `U+2014` has no decomposition). -/
def nfkdChar (c : Char) : List Char :=
  if cp c < 0x80 then [c]
  else if cp c == 0xE9 then [Char.ofNat 0x65, Char.ofNat 0x301]
  else if cp c == 0xE0 then [Char.ofNat 0x61, Char.ofNat 0x300]
  else if cp c == 0xB2 then [Char.ofNat 0x32]
  else [c]

/-- Model of `String.prototype.normalize('NFD')` (canonical decomposition
only), charwise, over the same character table as `nfkdChar`: it agrees with
NFKD on the canonical decompositions (`é`, `à`) but leaves
compatibility-only characters such as the superscript two `U+00B2` intact. -/
def nfdChar (c : Char) : List Char :=
  if cp c < 0x80 then [c]
  else if cp c == 0xE9 then [Char.ofNat 0x65, Char.ofNat 0x301]
  else if cp c == 0xE0 then [Char.ofNat 0x61, Char.ofNat 0x300]
  else [c]

/-- Model of the JS global replace `str.replace(/X+/g, r)` for a
single-character class `X` given by `p`: each maximal run of `p`-characters
is replaced by the single character `r`.  The Boolean argument records
whether the previous character was part of a run still being replaced. -/
def replacePlusGo (p : Char → Bool) (r : Char) : Bool → List Char → List Char
  | _, [] => []
  | inRun, c :: cs =>
    if p c then
      if inRun then replacePlusGo p r true cs
      else r :: replacePlusGo p r true cs
    else c :: replacePlusGo p r false cs

/-- `str.replace(/X+/g, r)` on a whole list. -/
def replacePlus (p : Char → Bool) (r : Char) (l : List Char) : List Char :=
  replacePlusGo p r false l

/-- Model of `String.prototype.trim`: drop JS whitespace from both ends. -/
def jsTrim (l : List Char) : List Char :=
  ((l.dropWhile jsWhitespace).reverse.dropWhile jsWhitespace).reverse

/-- Embedding of `slugify` (src/main.ts lines 211–220): normalize to NFKD,
strip combining marks, trim, lowercase, remove everything outside
`[a-z0-9 -]`, replace whitespace runs with a hyphen, collapse hyphen runs. -/
def slugify (text : String) : String :=
  String.mk
    (replacePlus isHyphen '-'
      (replacePlus jsWhitespace '-'
        (((jsTrim ((text.data.flatMap nfkdChar).filter
            (fun c => !isCombiningMark c))).map jsToLower).filter keepChar)))

/-- The spec's run replacement (steps 6 and 7 of §4.1), written as the spec
describes it: on meeting a character of the class, emit one `r` and skip the
whole run. -/
def replaceRuns (p : Char → Bool) (r : Char) (l : List Char) : List Char :=
  match l with
  | [] => []
  | c :: cs =>
    if p c then r :: replaceRuns p r (cs.dropWhile p)
    else c :: replaceRuns p r cs
termination_by l.length
decreasing_by
  · simp only [List.length_cons]
    exact Nat.lt_succ_of_le (List.dropWhile_sublist p).length_le
  · simp

/-- The seven-step reference slug algorithm of spec §4.1, in the spec's
order, parametrised by the normalization table used in step 1. -/
def slugSpecSteps (table : Char → List Char) (text : String) : String :=
  String.mk
    (replaceRuns isHyphen '-'
      (replaceRuns jsWhitespace '-'
        (((jsTrim ((text.data.flatMap table).filter
            (fun c => !isCombiningMark c))).map jsToLower).filter keepChar)))

/-- The spec §4.1 algorithm with canonical decomposition (NFD) in step 1, as
the spec's step 1 words it. -/
def slugSpecNFD (text : String) : String := slugSpecSteps nfdChar text

/-- The spec §4.1 algorithm with compatibility decomposition (NFKD) in
step 1, matching the source's `normalize('NFKD')` call. -/
def slugSpecNFKD (text : String) : String := slugSpecSteps nfkdChar text

/-- The two heading styles of src/main.ts; the spec's data model (§3) names
them `PrefixHash` and `Underline`. -/
inductive HeadingStyle
  | PrefixHash
  | Underline
deriving DecidableEq, Repr

/-- The `LinePointer` record of src/main.ts lines 19–23. -/
structure LinePointer where
  lineNumber : Nat
  text : String
  style : HeadingStyle
deriving DecidableEq, Repr

/-- Model of `line.startsWith('# ')`: the first two characters are the hash
and a space. -/
def startsWithHashSpace (s : String) : Bool :=
  match s.data with
  | c1 :: c2 :: _ => c1 == '#' && c2 == ' '
  | _ => false

/-- Model of `line.substring(2)` as used on a line known to start with the
two ASCII characters `#` and space. -/
def dropTwoChars (s : String) : String := String.mk (s.data.drop 2)

/-- Model of the JS test `line.match(/^=+$/) !== null`: the line is
non-empty and consists only of `=` characters. -/
def eqRun (s : String) : Bool := !s.data.isEmpty && s.data.all (fun c => c == '=')

/-- The loop of `findHeading` (src/main.ts lines 184–206), walking the lines
from absolute index `i`; the list argument holds the lines from index `i`
on.  A line starting with `# ` yields a PrefixHash pointer; otherwise, if
the following line exists and is a run of `=`, the line yields an Underline
pointer; otherwise the loop advances. -/
def findHeadingGo (i : Nat) : List String → Option LinePointer
  | [] => none
  | l :: rest =>
    if startsWithHashSpace l then
      some ⟨i, dropTwoChars l, HeadingStyle.PrefixHash⟩
    else
      match rest with
      | nxt :: _ =>
        if eqRun nxt then some ⟨i, l, HeadingStyle.Underline⟩
        else findHeadingGo (i + 1) rest
      | [] => none

/-- Embedding of `findHeading` (src/main.ts lines 184–206). -/
def findHeading (lines : List String) (startLine : Nat) : Option LinePointer :=
  findHeadingGo startLine (lines.drop startLine)

/-- The scan of `findNoteStart` (src/main.ts lines 167–172) looking for the
closing front-matter delimiter from absolute index `i` on; returns the index
of the line after the delimiter. -/
def findCloseGo (i : Nat) : List String → Option Nat
  | [] => none
  | l :: rest => if l == "---" then some (i + 1) else findCloseGo (i + 1) rest

/-- Embedding of `findNoteStart` (src/main.ts lines 162–175): if line 0 is
exactly `---`, the note starts after the next `---` line; if there is none,
or line 0 is not `---` (including the empty file, where `fileLines[0]` is
`undefined`), the note starts at line 0. -/
def findNoteStart (lines : List String) : Nat :=
  match lines with
  | first :: rest => if first == "---" then (findCloseGo 1 rest).getD 0 else 0
  | [] => 0

/-- Model of `data.split('\n')`: split on every newline, keeping empty
pieces, so the empty string yields `[""]` exactly as in JS. -/
def splitLinesGo (acc : List Char) : List Char → List String
  | [] => [String.mk acc.reverse]
  | c :: cs =>
    if c == '\n' then String.mk acc.reverse :: splitLinesGo [] cs
    else splitLinesGo (c :: acc) cs

/-- `data.split('\n')` on a whole string. -/
def splitLines (s : String) : List String := splitLinesGo [] s.data

/-- The rename decision of `forceRenameFile` (src/main.ts lines 136–148):
split the content into lines, skip front-matter, find the first heading; if
one is found, slugify it, and when the slug is non-empty and differs from
the slug of the current basename, answer the target slug. -/
def computeRename (basename data : String) : Option String :=
  match findHeading (splitLines data) (findNoteStart (splitLines data)) with
  | none => none
  | some heading =>
    if (slugify heading.text).length > 0 &&
        !(slugify basename == slugify heading.text) then
      some (slugify heading.text)
    else none

/-- Outcome of the external `fileManager.renameFile` call: the returned
promise either fulfills or rejects. -/
inductive RenameOutcome
  | success
  | failure
deriving DecidableEq, Repr

/-- Observable actions of the controller: writes to the
`isRenameInProgress` field and the external rename invocation. -/
inductive ControllerEvent
  | flagSet (b : Bool)
  | renameTo (path : String)
deriving DecidableEq, Repr

/-- Embedding of `forceRenameFile` (src/main.ts lines 135–154) as the trace
of controller events of one invocation whose `vault.read` succeeded with
`data`.  When the rename condition holds, the code sets the flag, awaits the
external rename, and clears the flag; there is no try/finally, so when the
awaited rename rejects, the rejection propagates out of the async callback
and the clearing assignment never runs. -/
def forceRenameFile (parentPath basename data : String)
    (outcome : RenameOutcome) : List ControllerEvent :=
  match computeRename basename data with
  | none => []
  | some s =>
    ControllerEvent.flagSet true ::
      ControllerEvent.renameTo (parentPath ++ "/" ++ s ++ ".md") ::
        (match outcome with
         | RenameOutcome.success => [ControllerEvent.flagSet false]
         | RenameOutcome.failure => [])

/-- The tail of the controller trace after the rename invocation: the flag
is cleared exactly when the awaited rename fulfilled. -/
def renameTailEvents : RenameOutcome → List ControllerEvent
  | RenameOutcome.success => [ControllerEvent.flagSet false]
  | RenameOutcome.failure => []

/-- The flag value left behind by a rename with the given outcome: `true`
(still in flight) exactly when the rename failed. -/
def flagAfterRename : RenameOutcome → Bool
  | RenameOutcome.success => false
  | RenameOutcome.failure => true

/-- The value of the `isRenameInProgress` field after a trace of events,
starting from `flag`. -/
def runEvents (flag : Bool) : List ControllerEvent → Bool
  | [] => flag
  | ControllerEvent.flagSet b :: rest => runEvents b rest
  | ControllerEvent.renameTo _ :: rest => runEvents flag rest

/-- Whether a trace invokes the external rename. -/
def renameInvoked (t : List ControllerEvent) : Bool :=
  t.any (fun e =>
    match e with
    | ControllerEvent.renameTo _ => true
    | _ => false)

/-- Behaviour of the JS regex subsystem for one pattern string: whether
`new RegExp(pattern)` succeeds, and, when it does, the result of
`reg.exec(path) !== null` for each path. -/
structure RegexBehavior where
  valid : Bool
  matchesPath : String → Bool

/-- Embedding of `fileIsIncluded` (src/main.ts lines 82–104), with the
result of the external `isExcluded` predicate passed in as `excluded` and
the regex engine as `rb`.  The TS function returns `true` for an excluded
file, `true` for a manually included path, bare `undefined` (the plain
`return;`) when the regex setting is the empty string, the regex match
result for a valid pattern, and `false` when `new RegExp` throws; the
`Option Bool` codomain records `undefined` as `none`. -/
def fileIsIncluded (excluded : Bool) (includedFiles : List String)
    (includeRegex : String) (rb : RegexBehavior) (path : String) : Option Bool :=
  if excluded then some true
  else if includedFiles.contains path then some true
  else if includeRegex == "" then none
  else if rb.valid then some (rb.matchesPath path)
  else some false

/-- JS truthiness of the values `fileIsIncluded` can produce: `undefined`
and `false` are falsy. -/
def truthy : Option Bool → Bool
  | none => false
  | some b => b

/-- The data of a `modify` event as far as `handleRenameFile` inspects it:
whether the argument is a `TFile`, its extension, whether it is the active
file, and its path. -/
structure FileEvent where
  isTFile : Bool
  extension : String
  isActiveFile : Bool
  path : String

/-- Embedding of `handleRenameFile` (src/main.ts lines 111–133): answers
whether control reaches the `forceRenameFile` call.  The
`isRenameInProgress` field of the controller is passed in, and — exactly as
in the source, whose body never reads the field — it is not consulted by
any of the four checks. -/
def handleRenameFile (isRenameInProgress : Bool) (excluded : Bool)
    (includedFiles : List String) (includeRegex : String) (rb : RegexBehavior)
    (ev : FileEvent) : Bool :=
  if !ev.isTFile then false
  else if !(ev.extension == "md") then false
  else if !ev.isActiveFile then false
  else if !(truthy (fileIsIncluded excluded includedFiles includeRegex rb ev.path)) then
    false
  else true

/-- A line at index `i` matches the Prefix pattern. -/
def prefixAt (lines : List String) (i : Nat) : Bool :=
  match lines[i]? with
  | some l => startsWithHashSpace l
  | none => false

/-- The line after index `i` exists and is a run of `=`. -/
def underlineNextAt (lines : List String) (i : Nat) : Bool :=
  match lines[i + 1]? with
  | some nxt => eqRun nxt
  | none => false

/-- One of the two heading patterns is anchored at line `i`. -/
def anchoredAt (lines : List String) (i : Nat) : Bool :=
  prefixAt lines i || underlineNextAt lines i

/-- The shape the spec (§4.2 step 2) requires of a returned heading match:
the matched line exists; a line beginning with `# ` yields a Prefix-style
match whose text is the remainder of the line, and only a line not
beginning with `# ` can be the first half of an Underline pair, whose text
is that line verbatim. -/
def matchShape (lines : List String) (h : LinePointer) : Prop :=
  ∃ cur, lines[h.lineNumber]? = some cur ∧
    ((startsWithHashSpace cur = true ∧ h.style = HeadingStyle.PrefixHash ∧
        h.text = dropTwoChars cur) ∨
     (startsWithHashSpace cur = false ∧ h.style = HeadingStyle.Underline ∧
        h.text = cur ∧
        ∃ nxt, lines[h.lineNumber + 1]? = some nxt ∧ eqRun nxt = true))

/-- The spec's first-match contract for heading extraction from body start
`s`: `none` exactly when no pattern is anchored at or after `s`; otherwise
the returned pointer is anchored, of the right shape, and no pattern is
anchored strictly earlier (at or after `s`). -/
def headingResultSpec (lines : List String) (s : Nat) : Option LinePointer → Prop
  | none => ∀ j, s ≤ j → anchoredAt lines j = false
  | some h =>
    s ≤ h.lineNumber ∧
      (∀ j, s ≤ j → j < h.lineNumber → anchoredAt lines j = false) ∧
      matchShape lines h

/-- The spec's front-matter contract (§4.2 step 1) for the body start `s`:
when line 0 is exactly `---` and some later line is exactly `---`, the body
starts right after the earliest such line; otherwise the body starts at
line 0. -/
def noteStartSpec (lines : List String) (s : Nat) : Prop :=
  (∃ j, 1 ≤ j ∧ lines[0]? = some "---" ∧ lines[j]? = some "---" ∧
      (∀ m, 1 ≤ m → m < j → lines[m]? ≠ some "---") ∧ s = j + 1) ∨
  ((lines[0]? ≠ some "---" ∨ ∀ j, 1 ≤ j → lines[j]? ≠ some "---") ∧ s = 0)

/-- ASCII punctuation other than the hyphen. -/
def punctNonHyphen (c : Char) : Bool :=
  ((0x21 ≤ cp c && cp c ≤ 0x2F) || (0x3A ≤ cp c && cp c ≤ 0x40) ||
   (0x5B ≤ cp c && cp c ≤ 0x60) || (0x7B ≤ cp c && cp c ≤ 0x7E)) &&
  !(cp c == 0x2D)

/-- No two adjacent hyphens occur in the list. -/
def noAdjHyphens : List Char → Bool
  | a :: b :: rest => !(a == '-' && b == '-') && noAdjHyphens (b :: rest)
  | _ => true

/-- The string `"Café — Déjà Vu"` of the spec's determinism example, built
from explicit code points: precomposed `é` (U+00E9), em dash (U+2014),
precomposed `à` (U+00E0). -/
def cafeInput : String :=
  String.mk ['C', 'a', 'f', Char.ofNat 0xE9, ' ', Char.ofNat 0x2014, ' ',
             'D', Char.ofNat 0xE9, 'j', Char.ofNat 0xE0, ' ', 'V', 'u']

/-- The one-character string holding the superscript two U+00B2, a character
with a compatibility decomposition but no canonical one. -/
def sup2Input : String := String.mk [Char.ofNat 0xB2]

/-! ## Helper lemmas: character classes -/

theorem good_cp_lt {c : Char} (h : goodChar c = true) : cp c < 0x80 := by
  simp [goodChar] at h; omega

theorem good_nfkd {c : Char} (h : goodChar c = true) : nfkdChar c = [c] := by
  have hlt : cp c < 0x80 := good_cp_lt h
  simp [nfkdChar, hlt]

theorem good_not_mark {c : Char} (h : goodChar c = true) :
    isCombiningMark c = false := by
  simp [goodChar, isCombiningMark] at h ⊢; omega

theorem good_not_ws {c : Char} (h : goodChar c = true) : jsWhitespace c = false := by
  simp [goodChar, jsWhitespace] at h ⊢; omega

theorem good_lower {c : Char} (h : goodChar c = true) : jsToLower c = c := by
  have hno : ¬(0x41 ≤ cp c ∧ cp c ≤ 0x5A) := by simp [goodChar] at h; omega
  simp [jsToLower, hno]

theorem good_keep {c : Char} (h : goodChar c = true) : keepChar c = true := by
  simp [goodChar, keepChar] at h ⊢; omega

theorem keep_not_ws_good {c : Char} (hk : keepChar c = true)
    (hw : jsWhitespace c = false) : goodChar c = true := by
  simp [keepChar, jsWhitespace, goodChar] at hk hw ⊢; omega

theorem isHyphen_eq {c : Char} (h : isHyphen c = true) : c = '-' :=
  eq_of_beq h

theorem cp_hyphen : cp '-' = 0x2D := rfl

theorem punct_cp {c : Char} (h : punctNonHyphen c = true) :
    0x21 ≤ cp c ∧ cp c ≤ 0x7E ∧ cp c ≠ 0x2D := by
  simp [punctNonHyphen] at h; omega

theorem punct_nfkd {c : Char} (h : punctNonHyphen c = true) : nfkdChar c = [c] := by
  have := punct_cp h
  have hlt : cp c < 0x80 := by omega
  simp [nfkdChar, hlt]

theorem punct_not_mark {c : Char} (h : punctNonHyphen c = true) :
    isCombiningMark c = false := by
  have := punct_cp h
  simp [isCombiningMark]; omega

theorem punct_not_ws {c : Char} (h : punctNonHyphen c = true) :
    jsWhitespace c = false := by
  have := punct_cp h
  simp [jsWhitespace]; omega

theorem punct_lower {c : Char} (h : punctNonHyphen c = true) : jsToLower c = c := by
  have hno : ¬(0x41 ≤ cp c ∧ cp c ≤ 0x5A) := by simp [punctNonHyphen] at h; omega
  simp [jsToLower, hno]

theorem punct_not_keep {c : Char} (h : punctNonHyphen c = true) :
    keepChar c = false := by
  simp [punctNonHyphen, keepChar] at h ⊢; omega

/-! ## Helper lemmas: run replacement -/

theorem mem_replacePlusGo {p : Char → Bool} {r : Char} :
    ∀ {l : List Char} {b : Bool} {c : Char}, c ∈ replacePlusGo p r b l →
      c = r ∨ (c ∈ l ∧ p c = false) := by
  intro l
  induction l with
  | nil => intro b c h; simp [replacePlusGo] at h
  | cons c0 cs ih =>
    intro b c h
    by_cases hc : p c0 = true
    · cases b with
      | true =>
        simp only [replacePlusGo, hc, if_true] at h
        rcases ih h with h' | h'
        · exact Or.inl h'
        · exact Or.inr ⟨List.mem_cons_of_mem _ h'.1, h'.2⟩
      | false =>
        simp only [replacePlusGo, hc, if_true] at h
        rcases List.mem_cons.mp h with h' | h'
        · exact Or.inl h'
        · rcases ih h' with h'' | h''
          · exact Or.inl h''
          · exact Or.inr ⟨List.mem_cons_of_mem _ h''.1, h''.2⟩
    · have hc' : p c0 = false := by simpa using hc
      simp only [replacePlusGo, hc', Bool.false_eq_true, if_false] at h
      rcases List.mem_cons.mp h with h' | h'
      · exact Or.inr ⟨by simp [h'], h' ▸ hc'⟩
      · rcases ih h' with h'' | h''
        · exact Or.inl h''
        · exact Or.inr ⟨List.mem_cons_of_mem _ h''.1, h''.2⟩

theorem replacePlusGo_id {p : Char → Bool} {r : Char} :
    ∀ {l : List Char} (b : Bool), (∀ c ∈ l, p c = false) →
      replacePlusGo p r b l = l := by
  intro l
  induction l with
  | nil => intro b _; rfl
  | cons c0 cs ih =>
    intro b h
    have hc : p c0 = false := h c0 (by simp)
    simp only [replacePlusGo, hc, Bool.false_eq_true, if_false]
    exact congrArg (c0 :: ·) (ih false fun c hc' => h c (List.mem_cons_of_mem _ hc'))

theorem replacePlusGo_true_head {p : Char → Bool} {r : Char} :
    ∀ {l : List Char} {c : Char} {cs' : List Char},
      replacePlusGo p r true l = c :: cs' → p c = false := by
  intro l
  induction l with
  | nil => intro c cs' h; simp [replacePlusGo] at h
  | cons c0 cs ih =>
    intro c cs' h
    by_cases hc : p c0 = true
    · simp only [replacePlusGo, hc, if_true] at h
      exact ih h
    · have hc' : p c0 = false := by simpa using hc
      simp only [replacePlusGo, hc', Bool.false_eq_true, if_false] at h
      cases h
      exact hc'

theorem noAdjHyphens_cons_of_not_hyphen {c : Char} {t : List Char}
    (hc : (c == '-') = false) (ht : noAdjHyphens t = true) :
    noAdjHyphens (c :: t) = true := by
  cases t with
  | nil => rfl
  | cons d r => simp [noAdjHyphens, hc] at ht ⊢; exact ht

theorem noAdjHyphens_tail {c : Char} {t : List Char}
    (h : noAdjHyphens (c :: t) = true) : noAdjHyphens t = true := by
  cases t with
  | nil => rfl
  | cons d r => simp [noAdjHyphens] at h ⊢; exact h.2

theorem noAdjHyphens_replacePlusGo :
    ∀ (l : List Char) (b : Bool),
      noAdjHyphens (replacePlusGo isHyphen '-' b l) = true := by
  intro l
  induction l with
  | nil => intro b; rfl
  | cons c0 cs ih =>
    intro b
    by_cases hc : isHyphen c0 = true
    · cases b with
      | true => simpa only [replacePlusGo, hc, if_true] using ih true
      | false =>
        simp only [replacePlusGo, hc, if_true]
        cases hout : replacePlusGo isHyphen '-' true cs with
        | nil => rfl
        | cons d r =>
          have hd : isHyphen d = false := replacePlusGo_true_head hout
          have hnd : noAdjHyphens (d :: r) = true := hout ▸ ih true
          simp [noAdjHyphens, isHyphen] at hd hnd ⊢
          exact ⟨hd, hnd⟩
    · have hc' : isHyphen c0 = false := by simpa using hc
      simp only [replacePlusGo, hc', Bool.false_eq_true, if_false]
      exact noAdjHyphens_cons_of_not_hyphen hc' (ih false)

theorem replacePlusGo_eq_self_of_noAdj :
    ∀ {l : List Char}, noAdjHyphens l = true →
      replacePlusGo isHyphen '-' false l = l := by
  intro l
  induction l with
  | nil => intro _; rfl
  | cons c0 cs ih =>
    intro h
    by_cases hc : isHyphen c0 = true
    · have hc0 : c0 = '-' := isHyphen_eq hc
      subst hc0
      simp only [replacePlusGo, hc, if_true]
      cases cs with
      | nil => rfl
      | cons d r =>
        have hd : (d == '-') = false := by
          simp [noAdjHyphens] at h
          simpa using h.1
        have hdh : isHyphen d = false := hd
        have htail : noAdjHyphens (d :: r) = true := noAdjHyphens_tail h
        have := ih htail
        simp only [replacePlusGo, hdh, Bool.false_eq_true, if_false,
          List.cons.injEq, true_and] at this ⊢
        exact this
    · have hc' : isHyphen c0 = false := by simpa using hc
      simp only [replacePlusGo, hc', Bool.false_eq_true, if_false]
      exact congrArg (c0 :: ·) (ih (noAdjHyphens_tail h))

theorem replacePlusGo_true_eq {p : Char → Bool} {r : Char} :
    ∀ (l : List Char),
      replacePlusGo p r true l = replacePlusGo p r false (l.dropWhile p) := by
  intro l
  induction l with
  | nil => rfl
  | cons c0 cs ih =>
    by_cases hc : p c0 = true
    · simp only [replacePlusGo, hc, if_true, List.dropWhile_cons, ih]
    · have hc' : p c0 = false := by simpa using hc
      simp only [replacePlusGo, hc', Bool.false_eq_true, if_false,
        List.dropWhile_cons]

theorem replaceRuns_eq_aux (p : Char → Bool) (r : Char) :
    ∀ (n : Nat) (l : List Char), l.length ≤ n →
      replaceRuns p r l = replacePlus p r l := by
  intro n
  induction n with
  | zero =>
    intro l h
    have : l = [] := List.eq_nil_of_length_eq_zero (Nat.le_zero.mp h)
    subst this
    simp [replaceRuns, replacePlus, replacePlusGo]
  | succ n ih =>
    intro l h
    cases l with
    | nil => simp [replaceRuns, replacePlus, replacePlusGo]
    | cons c0 cs =>
      simp only [List.length_cons, Nat.succ_le_succ_iff] at h
      by_cases hc : p c0 = true
      · have hdrop : (cs.dropWhile p).length ≤ n :=
          le_trans (List.dropWhile_sublist p).length_le h
        simp only [replaceRuns, replacePlus, replacePlusGo, hc, if_true]
        rw [ih _ hdrop, replacePlus, replacePlusGo_true_eq]
        simp
      · have hc' : p c0 = false := by simpa using hc
        simp only [replaceRuns, replacePlus, replacePlusGo, hc',
          Bool.false_eq_true, if_false]
        rw [ih _ h, replacePlus]

theorem replaceRuns_eq_replacePlus (p : Char → Bool) (r : Char)
    (l : List Char) : replaceRuns p r l = replacePlus p r l :=
  replaceRuns_eq_aux p r l.length l (Nat.le_refl _)

/-! ## Helper lemmas: identity of the pipeline steps on fixed points -/

theorem flatMap_id_of {f : Char → List Char} :
    ∀ {l : List Char}, (∀ c ∈ l, f c = [c]) → l.flatMap f = l := by
  intro l
  induction l with
  | nil => intro _; rfl
  | cons c cs ih =>
    intro h
    simp only [List.flatMap_cons, h c (by simp),
      ih fun c hc => h c (List.mem_cons_of_mem _ hc), List.singleton_append]

theorem map_id_of {f : Char → Char} :
    ∀ {l : List Char}, (∀ c ∈ l, f c = c) → l.map f = l := by
  intro l
  induction l with
  | nil => intro _; rfl
  | cons c cs ih =>
    intro h
    simp only [List.map_cons, h c (by simp),
      ih fun d hd => h d (List.mem_cons_of_mem _ hd)]

theorem dropWhile_id_of {p : Char → Bool} :
    ∀ {l : List Char}, (∀ c ∈ l, p c = false) → l.dropWhile p = l := by
  intro l h
  cases l with
  | nil => rfl
  | cons c cs => simp [List.dropWhile_cons, h c (by simp)]

theorem jsTrim_id_of {l : List Char}
    (h : ∀ c ∈ l, jsWhitespace c = false) : jsTrim l = l := by
  unfold jsTrim
  rw [dropWhile_id_of h,
    dropWhile_id_of fun c hc => h c (List.mem_reverse.mp hc),
    List.reverse_reverse]

/-! ## Helper lemmas: canonical form of slugs -/

theorem good_after_pipeline {l5 : List Char}
    (h5 : ∀ c ∈ l5, keepChar c = true) :
    ∀ c ∈ replacePlus isHyphen '-' (replacePlus jsWhitespace '-' l5),
      goodChar c = true := by
  intro c hc
  rcases mem_replacePlusGo hc with h | ⟨hmem, hhy⟩
  · subst h; decide
  · rcases mem_replacePlusGo hmem with h | ⟨hmem5, hws⟩
    · subst h; decide
    · exact keep_not_ws_good (h5 c hmem5) hws

theorem slug_data_good (x : String) :
    ∀ c ∈ (slugify x).data, goodChar c = true := by
  intro c hc
  have hc' : c ∈ replacePlus isHyphen '-'
      (replacePlus jsWhitespace '-'
        (((jsTrim ((x.data.flatMap nfkdChar).filter
            (fun c => !isCombiningMark c))).map jsToLower).filter keepChar)) := hc
  exact good_after_pipeline (fun d hd => (List.mem_filter.mp hd).2) c hc'

theorem slug_data_noAdj (x : String) :
    noAdjHyphens (slugify x).data = true :=
  noAdjHyphens_replacePlusGo _ false

theorem slugify_canonical_id {l : List Char}
    (hg : ∀ c ∈ l, goodChar c = true) (hn : noAdjHyphens l = true) :
    slugify (String.mk l) = String.mk l := by
  have h1 : l.flatMap nfkdChar = l :=
    flatMap_id_of fun c hc => good_nfkd (hg c hc)
  have h2 : l.filter (fun c => !isCombiningMark c) = l :=
    List.filter_eq_self.mpr fun c hc => by simp [good_not_mark (hg c hc)]
  have h3 : jsTrim l = l := jsTrim_id_of fun c hc => good_not_ws (hg c hc)
  have h4 : l.map jsToLower = l := map_id_of fun c hc => good_lower (hg c hc)
  have h5 : l.filter keepChar = l :=
    List.filter_eq_self.mpr fun c hc => by simp [good_keep (hg c hc)]
  have h6 : replacePlus jsWhitespace '-' l = l :=
    replacePlusGo_id false fun c hc => good_not_ws (hg c hc)
  have h7 : replacePlus isHyphen '-' l = l :=
    replacePlusGo_eq_self_of_noAdj hn
  unfold slugify
  have hdata : (String.mk l).data = l := rfl
  rw [hdata, h1, h2, h3, h4, h5, h6, h7]

theorem slugify_fixed (x : String) : slugify (slugify x) = slugify x :=
  slugify_canonical_id (slug_data_good x) (slug_data_noAdj x)

theorem slugify_eq_empty_of_punct {t : String}
    (h : t.data.all punctNonHyphen = true) : slugify t = "" := by
  have hall : ∀ c ∈ t.data, punctNonHyphen c = true := by
    simpa [List.all_eq_true] using h
  have h1 : t.data.flatMap nfkdChar = t.data :=
    flatMap_id_of fun c hc => punct_nfkd (hall c hc)
  have h2 : t.data.filter (fun c => !isCombiningMark c) = t.data :=
    List.filter_eq_self.mpr fun c hc => by simp [punct_not_mark (hall c hc)]
  have h3 : jsTrim t.data = t.data :=
    jsTrim_id_of fun c hc => punct_not_ws (hall c hc)
  have h4 : t.data.map jsToLower = t.data :=
    map_id_of fun c hc => punct_lower (hall c hc)
  have h5 : t.data.filter keepChar = [] :=
    List.filter_eq_nil_iff.mpr fun c hc => by simp [punct_not_keep (hall c hc)]
  unfold slugify
  rw [h1, h2, h3, h4, h5]
  rfl

/-! ## Helper lemmas: the idempotence of forceSync -/

theorem computeRename_after (basename data s : String)
    (h : computeRename basename data = some s) : computeRename s data = none := by
  unfold computeRename at h ⊢
  cases hh : findHeading (splitLines data) (findNoteStart (splitLines data)) with
  | none =>
    simp only [hh] at h
    exact absurd h (by simp)
  | some heading =>
    simp only [hh] at h ⊢
    by_cases hcond : ((slugify heading.text).length > 0 &&
        !(slugify basename == slugify heading.text)) = true
    · rw [if_pos hcond] at h
      have hs : s = slugify heading.text := (Option.some.injEq ..).mp h.symm
      have hfix : slugify s = slugify heading.text := by
        rw [hs]; exact slugify_fixed heading.text
      simp [hfix]
    · rw [if_neg hcond] at h
      exact absurd h (by simp)

/-! ## Helper lemmas: list indexing through drop -/

theorem getElem?_of_drop_cons {α : Type} {lines : List α} {i : Nat} {l : α}
    {rest : List α} (h : lines.drop i = l :: rest) : lines[i]? = some l := by
  have h0 : (lines.drop i)[0]? = some l := by rw [h]; simp
  rw [List.getElem?_drop] at h0
  simpa using h0

theorem drop_succ_of_drop_cons {α : Type} {lines : List α} {i : Nat} {l : α}
    {rest : List α} (h : lines.drop i = l :: rest) :
    lines.drop (i + 1) = rest := by
  have := List.drop_drop 1 i lines
  rw [h] at this
  simpa using this.symm

theorem getElem?_none_of_drop_nil {α : Type} {lines : List α} {i : Nat}
    (h : lines.drop i = []) : ∀ j, i ≤ j → lines[j]? = none := by
  intro j hj
  exact List.getElem?_eq_none
    (le_trans (List.drop_eq_nil_iff.mp h) hj)

/-! ## Helper lemmas: characterisation of the heading scan -/

theorem anchored_false_of_out_of_range {lines : List String} {j : Nat}
    (hj : lines[j]? = none) (hj1 : lines[j + 1]? = none) :
    anchoredAt lines j = false := by
  simp [anchoredAt, prefixAt, underlineNextAt, hj, hj1]

theorem findHeadingGo_none_iff (lines : List String) :
    ∀ (ls : List String) (i : Nat), ls = lines.drop i →
      (findHeadingGo i ls = none ↔ ∀ j, i ≤ j → anchoredAt lines j = false) := by
  intro ls
  induction ls with
  | nil =>
    intro i hd
    have hnone := getElem?_none_of_drop_nil hd.symm
    constructor
    · intro _ j hj
      exact anchored_false_of_out_of_range (hnone j hj)
        (hnone (j + 1) (le_trans hj (Nat.le_succ j)))
    · intro _; rfl
  | cons l rest ih =>
    intro i hd
    have hi : lines[i]? = some l := getElem?_of_drop_cons hd.symm
    have hdrop : lines.drop (i + 1) = rest := drop_succ_of_drop_cons hd.symm
    have hpre : prefixAt lines i = startsWithHashSpace l := by
      simp [prefixAt, hi]
    by_cases hp : startsWithHashSpace l = true
    · have hstep : findHeadingGo i (l :: rest) =
          some ⟨i, dropTwoChars l, HeadingStyle.PrefixHash⟩ := by
        simp [findHeadingGo, hp]
      rw [hstep]
      constructor
      · intro h; exact absurd h (by simp)
      · intro h
        have := h i (Nat.le_refl i)
        rw [anchoredAt, hpre, hp] at this
        exact absurd this (by simp)
    · have hp' : startsWithHashSpace l = false := by simpa using hp
      cases rest with
      | nil =>
        have hnone := getElem?_none_of_drop_nil hdrop
        have hstep : findHeadingGo i [l] = none := by
          simp [findHeadingGo, hp']
        rw [hstep]
        have hrhs : ∀ j, i ≤ j → anchoredAt lines j = false := by
          intro j hj
          rcases Nat.eq_or_lt_of_le hj with rfl | hlt
          · have hj1 : lines[i + 1]? = none := hnone (i + 1) (Nat.le_refl _)
            simp [anchoredAt, prefixAt, underlineNextAt, hi, hp', hj1]
          · exact anchored_false_of_out_of_range (hnone j hlt)
              (hnone (j + 1) (le_trans hlt (Nat.le_succ j)))
        exact ⟨fun _ => hrhs, fun _ => rfl⟩
      | cons nxt rest' =>
        have hnxt : lines[i + 1]? = some nxt := getElem?_of_drop_cons hdrop
        have hund : underlineNextAt lines i = eqRun nxt := by
          simp [underlineNextAt, hnxt]
        by_cases he : eqRun nxt = true
        · have hstep : findHeadingGo i (l :: nxt :: rest') =
              some ⟨i, l, HeadingStyle.Underline⟩ := by
            simp [findHeadingGo, hp', he]
          rw [hstep]
          constructor
          · intro h; exact absurd h (by simp)
          · intro h
            have := h i (Nat.le_refl i)
            rw [anchoredAt, hund, he] at this
            exact absurd this (by simp)
        · have he' : eqRun nxt = false := by simpa using he
          have hanchor : anchoredAt lines i = false := by
            rw [anchoredAt, hpre, hund, hp', he']; rfl
          have hstep : findHeadingGo i (l :: nxt :: rest') =
              findHeadingGo (i + 1) (nxt :: rest') := by
            simp [findHeadingGo, hp', he']
          rw [hstep, ih (i + 1) hdrop.symm]
          constructor
          · intro h j hj
            rcases Nat.eq_or_lt_of_le hj with rfl | hlt
            · exact hanchor
            · exact h j hlt
          · intro h j hj
            exact h j (le_trans (Nat.le_succ i) hj)

theorem findHeadingGo_some (lines : List String) :
    ∀ (ls : List String) (i : Nat) (h : LinePointer), ls = lines.drop i →
      findHeadingGo i ls = some h →
      i ≤ h.lineNumber ∧
        (∀ j, i ≤ j → j < h.lineNumber → anchoredAt lines j = false) ∧
        matchShape lines h := by
  intro ls
  induction ls with
  | nil => intro i h _ hgo; exact absurd hgo (by simp [findHeadingGo])
  | cons l rest ih =>
    intro i h hd hgo
    have hi : lines[i]? = some l := getElem?_of_drop_cons hd.symm
    have hdrop : lines.drop (i + 1) = rest := drop_succ_of_drop_cons hd.symm
    by_cases hp : startsWithHashSpace l = true
    · have hstep : findHeadingGo i (l :: rest) =
          some ⟨i, dropTwoChars l, HeadingStyle.PrefixHash⟩ := by
        simp [findHeadingGo, hp]
      rw [hstep, Option.some.injEq] at hgo
      subst hgo
      refine ⟨Nat.le_refl i, fun j hj hj' => absurd (lt_of_le_of_lt hj hj')
        (lt_irrefl i), ?_⟩
      exact ⟨l, hi, Or.inl ⟨hp, rfl, rfl⟩⟩
    · have hp' : startsWithHashSpace l = false := by simpa using hp
      cases rest with
      | nil => simp [findHeadingGo, hp'] at hgo
      | cons nxt rest' =>
        have hnxt : lines[i + 1]? = some nxt := getElem?_of_drop_cons hdrop
        by_cases he : eqRun nxt = true
        · have hstep : findHeadingGo i (l :: nxt :: rest') =
              some ⟨i, l, HeadingStyle.Underline⟩ := by
            simp [findHeadingGo, hp', he]
          rw [hstep, Option.some.injEq] at hgo
          subst hgo
          refine ⟨Nat.le_refl i, fun j hj hj' => absurd (lt_of_le_of_lt hj hj')
            (lt_irrefl i), ?_⟩
          exact ⟨l, hi, Or.inr ⟨hp', rfl, rfl, nxt, hnxt, he⟩⟩
        · have he' : eqRun nxt = false := by simpa using he
          have hstep : findHeadingGo i (l :: nxt :: rest') =
              findHeadingGo (i + 1) (nxt :: rest') := by
            simp [findHeadingGo, hp', he']
          rw [hstep] at hgo
          obtain ⟨hle, hmin, hshape⟩ := ih (i + 1) h hdrop.symm hgo
          have hanchor : anchoredAt lines i = false := by
            simp [anchoredAt, prefixAt, underlineNextAt, hi, hnxt, hp', he']
          refine ⟨le_trans (Nat.le_succ i) hle, fun j hj hj' => ?_, hshape⟩
          rcases Nat.eq_or_lt_of_le hj with rfl | hlt
          · exact hanchor
          · exact hmin j hlt hj'

/-! ## Helper lemmas: characterisation of the front-matter scan -/

theorem findCloseGo_none (lines : List String) :
    ∀ (ls : List String) (i : Nat), ls = lines.drop i →
      findCloseGo i ls = none → ∀ j, i ≤ j → lines[j]? ≠ some "---" := by
  intro ls
  induction ls with
  | nil =>
    intro i hd _ j hj
    rw [getElem?_none_of_drop_nil hd.symm j hj]
    simp
  | cons l rest ih =>
    intro i hd hgo j hj
    have hi : lines[i]? = some l := getElem?_of_drop_cons hd.symm
    have hdrop : lines.drop (i + 1) = rest := drop_succ_of_drop_cons hd.symm
    by_cases hl : (l == "---") = true
    · simp [findCloseGo, hl] at hgo
    · have hl' : (l == "---") = false := by simpa using hl
      simp only [findCloseGo, hl', Bool.false_eq_true, if_false] at hgo
      rcases Nat.eq_or_lt_of_le hj with rfl | hlt
      · rw [hi]
        intro hcontra
        have : l = "---" := (Option.some.injEq ..).mp hcontra
        rw [this] at hl'
        simp at hl'
      · exact ih (i + 1) hdrop.symm hgo j hlt

theorem findCloseGo_some (lines : List String) :
    ∀ (ls : List String) (i : Nat) (k : Nat), ls = lines.drop i →
      findCloseGo i ls = some k →
      ∃ j, i ≤ j ∧ k = j + 1 ∧ lines[j]? = some "---" ∧
        ∀ m, i ≤ m → m < j → lines[m]? ≠ some "---" := by
  intro ls
  induction ls with
  | nil => intro i k _ hgo; exact absurd hgo (by simp [findCloseGo])
  | cons l rest ih =>
    intro i k hd hgo
    have hi : lines[i]? = some l := getElem?_of_drop_cons hd.symm
    have hdrop : lines.drop (i + 1) = rest := drop_succ_of_drop_cons hd.symm
    by_cases hl : (l == "---") = true
    · have hleq : l = "---" := eq_of_beq hl
      simp only [findCloseGo, hl, if_true, Option.some.injEq] at hgo
      exact ⟨i, Nat.le_refl i, hgo.symm, hleq ▸ hi,
        fun m hm hm' => absurd (lt_of_le_of_lt hm hm') (lt_irrefl i)⟩
    · have hl' : (l == "---") = false := by simpa using hl
      simp only [findCloseGo, hl', Bool.false_eq_true, if_false] at hgo
      obtain ⟨j, hij, hk, hj, hmin⟩ := ih (i + 1) k hdrop.symm hgo
      refine ⟨j, le_trans (Nat.le_succ i) hij, hk, hj, fun m hm hm' => ?_⟩
      rcases Nat.eq_or_lt_of_le hm with rfl | hlt
      · rw [hi]
        intro hcontra
        have : l = "---" := (Option.some.injEq ..).mp hcontra
        rw [this] at hl'
        simp at hl'
      · exact hmin m hlt hm'

/-! ## Claim C1 -/

/-- C1 counterexample: an invocation of the controller that reaches the
rename step with a failing external rename leaves `isRenameInProgress` set:
the trace sets the flag and invokes the rename, but the final flag value is
`true`, not `false` — the guard does not reset on failure. -/
theorem forceRenameFile_flag_stuck_on_failure :
    renameInvoked (forceRenameFile "a" "note" "# Hello"
      RenameOutcome.failure) = true ∧
    runEvents false (forceRenameFile "a" "note" "# Hello"
      RenameOutcome.failure) = true := by
  exact ⟨by decide, by decide⟩

/-- C1 (amended): every invocation of the controller that reaches the rename
step transitions to `RenameInFlight` before invoking the external rename;
on a successful rename it transitions back to `Idle`, but after a failing
external rename the `isRenameInProgress` flag remains `true` (the clearing
assignment sits after the `await` with no try/finally, so a rejection skips
it). -/
theorem forceRenameFile_guard (parent basename data : String)
    (outcome : RenameOutcome)
    (hren : renameInvoked (forceRenameFile parent basename data outcome) = true) :
    ∃ s, computeRename basename data = some s ∧
      forceRenameFile parent basename data outcome =
        ControllerEvent.flagSet true ::
          ControllerEvent.renameTo (parent ++ "/" ++ s ++ ".md") ::
            renameTailEvents outcome ∧
      runEvents false (forceRenameFile parent basename data outcome) =
        flagAfterRename outcome := by
  cases hcr : computeRename basename data with
  | none =>
    exfalso
    unfold forceRenameFile at hren
    rw [hcr] at hren
    simp [renameInvoked] at hren
  | some s =>
    refine ⟨s, rfl, ?_, ?_⟩
    · unfold forceRenameFile
      rw [hcr]
      cases outcome <;> rfl
    · unfold forceRenameFile
      rw [hcr]
      cases outcome <;> rfl

/-- Witness for C1 (amended) at a concrete successful invocation. -/
theorem forceRenameFile_guard_witness :
    ∃ s, computeRename "note" "# Hello" = some s ∧
      forceRenameFile "a" "note" "# Hello" RenameOutcome.success =
        ControllerEvent.flagSet true ::
          ControllerEvent.renameTo ("a" ++ "/" ++ s ++ ".md") ::
            renameTailEvents RenameOutcome.success ∧
      runEvents false (forceRenameFile "a" "note" "# Hello"
          RenameOutcome.success) =
        flagAfterRename RenameOutcome.success :=
  forceRenameFile_guard "a" "note" "# Hello" RenameOutcome.success (by decide)

/-! ## Claim C2 -/

/-- C2 counterexample: a file-change event delivered while
`isRenameInProgress` is `true` (a markdown file, active, manually included)
is not ignored — the handler runs its checks and reaches the
`forceRenameFile` call. -/
theorem handleRenameFile_during_flight :
    handleRenameFile true false ["a.md"] "" ⟨true, fun _ => false⟩
      ⟨true, "md", true, "a.md"⟩ = true := by
  rfl

/-- C2 (amended): `handleRenameFile` never consults the in-flight flag — its
result is the same for any value of `isRenameInProgress`, and is determined
entirely by the `TFile` check, the `md` extension check, the active-file
check and the inclusion policy. -/
theorem handleRenameFile_ignores_flag (flag flag' excluded : Bool)
    (includedFiles : List String) (includeRegex : String) (rb : RegexBehavior)
    (ev : FileEvent) :
    handleRenameFile flag excluded includedFiles includeRegex rb ev =
      handleRenameFile flag' excluded includedFiles includeRegex rb ev ∧
    handleRenameFile flag excluded includedFiles includeRegex rb ev =
      (ev.isTFile && (ev.extension == "md") && ev.isActiveFile &&
        truthy (fileIsIncluded excluded includedFiles includeRegex rb ev.path)) := by
  constructor
  · rfl
  · unfold handleRenameFile
    cases h1 : ev.isTFile <;> cases h2 : (ev.extension == "md") <;>
      cases h3 : ev.isActiveFile <;>
      cases h4 : truthy (fileIsIncluded excluded includedFiles includeRegex
        rb ev.path) <;>
      simp [h1, h2, h3, h4]

/-- Witness for C2 (amended) at a concrete included markdown event. -/
theorem handleRenameFile_ignores_flag_witness :
    handleRenameFile true false ["b.md"] "" ⟨true, fun _ => false⟩
        ⟨true, "md", true, "b.md"⟩ =
      handleRenameFile false false ["b.md"] "" ⟨true, fun _ => false⟩
        ⟨true, "md", true, "b.md"⟩ ∧
    handleRenameFile true false ["b.md"] "" ⟨true, fun _ => false⟩
        ⟨true, "md", true, "b.md"⟩ =
      (true && (("md" : String) == "md") && true &&
        truthy (fileIsIncluded false ["b.md"] "" ⟨true, fun _ => false⟩
          "b.md")) :=
  handleRenameFile_ignores_flag true false false ["b.md"] ""
    ⟨true, fun _ => false⟩ ⟨true, "md", true, "b.md"⟩

/-! ## Claim C3 -/

/-- C3 counterexample: the heading text `---` consists only of punctuation,
yet its slug is `-`, not the empty string, and `forceSync` on a document
whose first heading is `---` does rename a file whose basename slug
differs. -/
theorem slugify_hyphens_counterexample :
    slugify "---" = "-" ∧ ("-" : String) ≠ "" ∧
    computeRename "note" "# ---" = some "-" ∧
    renameInvoked (forceRenameFile "d" "note" "# ---"
      RenameOutcome.success) = true := by
  exact ⟨by decide, by decide, by decide, by decide⟩

/-- C3 (amended): for every heading text consisting only of ASCII
punctuation other than the hyphen (for example `!?!`), `slugify` returns the
empty string, and `forceSync` on a document whose first heading has such
text performs no rename, regardless of the current basename. -/
theorem slug_punct_no_rename (t basename data : String) (h : LinePointer)
    (hpunct : t.data.all punctNonHyphen = true)
    (hfind : findHeading (splitLines data) (findNoteStart (splitLines data)) =
      some h)
    (htext : h.text = t) :
    slugify t = "" ∧ computeRename basename data = none := by
  have hempty : slugify t = "" := slugify_eq_empty_of_punct hpunct
  refine ⟨hempty, ?_⟩
  unfold computeRename
  simp only [hfind]
  have hzz : slugify h.text = "" := by rw [htext]; exact hempty
  simp [hzz]

/-- Witness for C3 (amended) at the heading `!?!`. -/
theorem slug_punct_no_rename_witness :
    slugify "!?!" = "" ∧ computeRename "x" "# !?!" = none :=
  slug_punct_no_rename "!?!" "x" "# !?!" ⟨0, "!?!", HeadingStyle.PrefixHash⟩
    (by decide) (by decide) (by decide)

/-! ## Claim C4 -/

/-- C4 counterexample: on `"Café — Déjà Vu"` the slug is not
`"caf-deja-vu"` — NFKD decomposes `é` into `e` plus a combining mark, so
the `e` of `café` survives. -/
theorem slugify_cafe_counterexample : slugify cafeInput ≠ "caf-deja-vu" := by
  decide

/-- C4 (amended): `slugify` is deterministic, and on the concrete input
`"Café — Déjà Vu"` it returns `"cafe-deja-vu"` (em dash removed as
non-alphanumeric, accents stripped, whitespace runs collapsed to one
hyphen). -/
theorem slugify_deterministic_cafe :
    (∀ x : String, slugify x = slugify x) ∧
    slugify cafeInput = "cafe-deja-vu" :=
  ⟨fun _ => rfl, by decide⟩

/-! ## Claim C5 -/

/-- C5 counterexample: the source normalizes with NFKD, not NFD — on the
superscript two U+00B2 (which has a compatibility decomposition to `2` but
no canonical one) the code yields `"2"` while the spec's NFD reference
algorithm yields `""`. -/
theorem slugify_ne_specNFD :
    slugify sup2Input ≠ slugSpecNFD sup2Input ∧
    slugify sup2Input = "2" ∧ slugSpecNFD sup2Input = "" := by
  have hnfd : slugSpecNFD sup2Input = "" := by
    unfold slugSpecNFD slugSpecSteps
    rw [replaceRuns_eq_replacePlus, replaceRuns_eq_replacePlus]
    decide
  refine ⟨?_, by decide, hnfd⟩
  rw [hnfd]
  decide

/-- C5 (amended): for every input string, `slugify` equals the spec's
seven-step reference algorithm applied in the spec's exact order, with
step 1 performing the compatibility decomposition (NFKD) that the source
requests, followed by stripping the combining marks U+0300–U+036F,
trimming, lowercasing, removing every character outside `[a-z0-9 -]`,
replacing whitespace runs with a single hyphen, and collapsing hyphen
runs. -/
theorem slugify_eq_specNFKD (s : String) : slugify s = slugSpecNFKD s := by
  unfold slugify slugSpecNFKD slugSpecSteps
  rw [replaceRuns_eq_replacePlus, replaceRuns_eq_replacePlus]

/-- Witness for C5 (amended) at a concrete input. -/
theorem slugify_eq_specNFKD_witness : slugify "A b" = slugSpecNFKD "A b" :=
  slugify_eq_specNFKD "A b"

/-! ## Claim C6 -/

/-- C6: whenever the external exclusion predicate reports the file as
excluded by the separate rule system, `fileIsIncluded` returns `true`
(included), whatever the explicit set, the regex setting, the regex engine
behaviour and the path — the exclusion check is evaluated first and
short-circuits the remaining rules. -/
theorem fileIsIncluded_excluded_included (includedFiles : List String)
    (includeRegex : String) (rb : RegexBehavior) (path : String) :
    fileIsIncluded true includedFiles includeRegex rb path = some true := rfl

/-- Witness for C6 at concrete settings. -/
theorem fileIsIncluded_excluded_included_witness :
    fileIsIncluded true [] "re" ⟨false, fun _ => false⟩ "p.md" = some true :=
  fileIsIncluded_excluded_included [] "re" ⟨false, fun _ => false⟩ "p.md"

/-! ## Claim C7 -/

/-- C7 counterexample: with the exclusion predicate not firing, the path not
in the explicit set, and the regex setting empty, `fileIsIncluded` returns
`undefined` (the TS `return;`), not the boolean `false`. -/
theorem fileIsIncluded_empty_regex_undefined :
    fileIsIncluded false [] "" ⟨true, fun _ => false⟩ "note.md" = none ∧
    fileIsIncluded false [] "" ⟨true, fun _ => false⟩ "note.md" ≠
      some false := by
  exact ⟨rfl, by decide⟩

/-- C7 (amended): whenever the exclusion predicate does not fire, the path
is not in the explicit set, and the regex rule does not include the path
(empty, invalid, or not matching), `fileIsIncluded` returns a falsy value —
`undefined` when the regex setting is empty and the boolean `false`
otherwise — and, being total, never throws to the caller even when the
regex is invalid. -/
theorem fileIsIncluded_not_included (excluded : Bool)
    (includedFiles : List String) (includeRegex : String) (rb : RegexBehavior)
    (path : String) (hex : excluded = false)
    (hmem : includedFiles.contains path = false)
    (hreg : includeRegex = "" ∨ rb.valid = false ∨
      rb.matchesPath path = false) :
    truthy (fileIsIncluded excluded includedFiles includeRegex rb path) =
      false ∧
    fileIsIncluded excluded includedFiles includeRegex rb path =
      (if includeRegex == "" then none else some false) := by
  subst hex
  have hmem' : path ∉ includedFiles := by simpa using hmem
  unfold fileIsIncluded
  rcases hreg with hreg | hreg | hreg
  · subst hreg
    simp [hmem', truthy]
  · by_cases hre : (includeRegex == "") = true
    · have h0 : includeRegex = "" := eq_of_beq hre
      subst h0
      simp [hmem', truthy]
    · have hne : includeRegex ≠ "" := by simpa using hre
      simp [hmem', hne, hreg, truthy]
  · by_cases hre : (includeRegex == "") = true
    · have h0 : includeRegex = "" := eq_of_beq hre
      subst h0
      simp [hmem', truthy]
    · have hne : includeRegex ≠ "" := by simpa using hre
      by_cases hv : rb.valid = true
      · simp [hmem', hne, hv, hreg, truthy]
      · have hv' : rb.valid = false := by simpa using hv
        simp [hmem', hne, hv', truthy]

/-- Witness for C7 (amended) with a valid non-matching regex. -/
theorem fileIsIncluded_not_included_witness :
    truthy (fileIsIncluded false [] "abc" ⟨true, fun _ => false⟩ "note.md") =
      false ∧
    fileIsIncluded false [] "abc" ⟨true, fun _ => false⟩ "note.md" =
      (if ("abc" : String) == "" then none else some false) :=
  fileIsIncluded_not_included false [] "abc" ⟨true, fun _ => false⟩ "note.md"
    rfl (by decide) (Or.inr (Or.inr rfl))

/-! ## Claim C8 -/

/-- C8: heading extraction (`findNoteStart` composed with `findHeading`)
satisfies the spec's contract: the body start is the line after the second
exact `---` delimiter when line 0 is exactly `---` and a closing delimiter
exists, and line 0 otherwise; from the body start, the lowest-index
anchored pattern wins, a line starting with `# ` yields a Prefix-style
match with the remainder as text and is never reinterpreted as the first
half of an Underline pair, an Underline pair yields its first line
verbatim, and the result is `none` exactly when neither pattern occurs at
or after the body start. -/
theorem findHeading_firstMatch (lines : List String) :
    noteStartSpec lines (findNoteStart lines) ∧
    headingResultSpec lines (findNoteStart lines)
      (findHeading lines (findNoteStart lines)) := by
  constructor
  · cases lines with
    | nil => exact Or.inr ⟨Or.inl (by simp), rfl⟩
    | cons first rest =>
      show noteStartSpec (first :: rest) (findNoteStart (first :: rest))
      simp only [findNoteStart]
      by_cases hf : (first == "---") = true
      · have hfeq : first = "---" := eq_of_beq hf
        rw [if_pos hf]
        cases hc : findCloseGo 1 rest with
        | none =>
          have hcl := findCloseGo_none (first :: rest) rest 1 rfl hc
          exact Or.inr ⟨Or.inr hcl, rfl⟩
        | some k =>
          obtain ⟨j, h1j, hk, hjline, hmin⟩ :=
            findCloseGo_some (first :: rest) rest 1 k rfl hc
          exact Or.inl ⟨j, h1j, by simp [hfeq], hjline, hmin, hk⟩
      · have hf' : (first == "---") = false := by simpa using hf
        have hne : first ≠ "---" := fun hcontra => by
          rw [hcontra] at hf'; simp at hf'
        rw [if_neg (by simp [hf'])]
        exact Or.inr ⟨Or.inl (by simp [hne]), rfl⟩
  · cases hr : findHeading lines (findNoteStart lines) with
    | none =>
      exact (findHeadingGo_none_iff lines (lines.drop (findNoteStart lines))
        (findNoteStart lines) rfl).mp hr
    | some h =>
      exact findHeadingGo_some lines (lines.drop (findNoteStart lines))
        (findNoteStart lines) h rfl hr

/-- Witness for C8 at the spec's front-matter-skip example document. -/
theorem findHeading_firstMatch_witness :
    noteStartSpec ["---", "t: x", "---", "# A"]
      (findNoteStart ["---", "t: x", "---", "# A"]) ∧
    headingResultSpec ["---", "t: x", "---", "# A"]
      (findNoteStart ["---", "t: x", "---", "# A"])
      (findHeading ["---", "t: x", "---", "# A"]
        (findNoteStart ["---", "t: x", "---", "# A"])) :=
  findHeading_firstMatch ["---", "t: x", "---", "# A"]

/-! ## Claim C9 -/

/-- C9: running `forceSync` twice in a row on an unchanged document produces
at most one rename — after the first run (and the basename update its
successful rename produces), the second run's trace is empty: no flag write
and no rename, for every document, initial basename and outcome. -/
theorem forceSync_idempotent (parent basename data : String)
    (outcome : RenameOutcome) :
    forceRenameFile parent ((computeRename basename data).getD basename) data
      outcome = [] := by
  cases hcr : computeRename basename data with
  | none =>
    simp only [hcr, Option.getD_none]
    unfold forceRenameFile
    rw [hcr]
  | some s =>
    have hnone : computeRename s data = none :=
      computeRename_after basename data s hcr
    simp only [hcr, Option.getD_some]
    unfold forceRenameFile
    rw [hnone]

/-- Witness for C9 at a concrete document and basename. -/
theorem forceSync_idempotent_witness :
    forceRenameFile "a" ((computeRename "note" "# Hi").getD "note") "# Hi"
      RenameOutcome.success = [] :=
  forceSync_idempotent "a" "note" "# Hi" RenameOutcome.success

/-! ## Claim C10 -/

/-- C10: `slugify` is idempotent — every output consists only of lowercase
ASCII letters, ASCII digits and hyphens, has no two adjacent hyphens, and
is a fixed point of `slugify`. -/
theorem slugify_idempotent (x : String) :
    (slugify x).data.all goodChar = true ∧
    noAdjHyphens (slugify x).data = true ∧
    slugify (slugify x) = slugify x := by
  refine ⟨?_, slug_data_noAdj x, slugify_fixed x⟩
  rw [List.all_eq_true]
  exact slug_data_good x

/-- Witness for C10 at a concrete input. -/
theorem slugify_idempotent_witness :
    (slugify "a-b").data.all goodChar = true ∧
    noAdjHyphens (slugify "a-b").data = true ∧
    slugify (slugify "a-b") = slugify "a-b" :=
  slugify_idempotent "a-b"

end SlugSync
